import Mathlib

/-!
# Verification of the trading engine's core against its specification

Shallow embedding of the trading repository's core data model and
algorithms, with theorems settling the specification's testable
properties.  Python floats are embedded as rationals (`ℚ`), `None`-able
fields as `Option`, and the stateful bar-by-bar loops as explicit state
passing over a state structure.

Embedded components:
* `Side`, `Position`, `Action` — the decision vocabulary
  (src/strategy/action.py, src/strategy/position.py);
* the vectorised backtest equity computation
  (src/execution/backtester.py, `evaluate`);
* the incremental statistics engine of the streaming backtester
  (src/executor/backtester.py);
* the OKX executor's action execution with close-before-open and retry
  (src/executor/okx.py);
* the drawdown band lookup (src/entry/drawdown.py, src/strategy/drawdown.py);
* the incremental EMA crossover signal (src/signal/macross.py, `step`);
* the stop-loss overlay loop (src/strategy/stoploss.py).
-/

namespace Trading

/-- Trade direction, mirroring the `Side` IntEnum
(SHORT = -1, FLAT = 0, LONG = 1). -/
inductive Side where
  | short
  | flat
  | long
deriving DecidableEq, Repr

/-- Integer value of a `Side`, as in the Python IntEnum. -/
def Side.toInt : Side → Int
  | .short => -1
  | .flat => 0
  | .long => 1

/-- A position decision, mirroring the `Position` dataclass of
src/strategy/action.py.  The dataclass defaults are
`side=Side.FLAT, size=1.0, price=None, stop_loss=None, take_profit=None`. -/
structure Position where
  side : Side := Side.flat
  size : ℚ := 1
  price : Option ℚ := none
  stop_loss : Option ℚ := none
  take_profit : Option ℚ := none
deriving DecidableEq, Repr

/-- The value produced by calling `Position()` with no arguments:
every field takes its dataclass default. -/
def Position.defaultCtor : Position := {}

/-- `Position.long(size)` classmethod. -/
def Position.long (size : ℚ := 1) : Position :=
  { side := Side.long, size := size }

/-- `Position.short(size)` classmethod. -/
def Position.short (size : ℚ := 1) : Position :=
  { side := Side.short, size := size }

/-- `Position.flat()` classmethod. -/
def Position.flat : Position :=
  { side := Side.flat, size := 0 }

/-- `Position.from_raw(position)` classmethod: sign gives the side,
absolute value gives the size; zero maps to `Position.flat()`. -/
def Position.from_raw (x : ℚ) : Position :=
  if x > 0 then { side := Side.long, size := |x| }
  else if x < 0 then { side := Side.short, size := |x| }
  else Position.flat

/-- The invariant claimed for positions: `size == 0` whenever
`side == FLAT`. -/
def Position.flatInv (p : Position) : Prop :=
  p.side = Side.flat → p.size = 0

instance (p : Position) : Decidable p.flatInv := by
  unfold Position.flatInv; infer_instance

/-- Strategy actions, mirroring the tagged variants `NoAction`,
`Open{position, close_price}`, `Close{position?, price?}` and
`Adjust{position}` of src/strategy/action.py. -/
inductive Action where
  | noAction
  | openPos (position : Position) (close_price : Option ℚ)
  | closePos (position : Option Position) (price : Option ℚ)
  | adjust (position : Position)
deriving DecidableEq, Repr

/-- Modelled from the spec: the action-resolution transition function
`resolve(prev, target)` of spec §4.2 is not implemented anywhere in the
source tree (only the `Action` variants it returns exist, in
src/strategy/action.py); this definition follows the spec's transition
table row by row: equal side and size → NoAction; FLAT → non-FLAT →
Open(target); non-FLAT → FLAT → Close(prev); opposite non-FLAT sides →
Open(target); same side, differing size → Adjust(target). -/
def resolve (prev target : Position) : Action :=
  if prev.side = target.side ∧ prev.size = target.size then Action.noAction
  else if prev.side = Side.flat ∧ target.side ≠ Side.flat then
    Action.openPos target none
  else if prev.side ≠ Side.flat ∧ target.side = Side.flat then
    Action.closePos (some prev) none
  else if prev.side ≠ target.side then Action.openPos target none
  else Action.adjust target

/-- Modelled from the spec: confirming an action commits the transition,
yielding the new "previous confirmed position" (spec §4.2 / §4.3); the
source only ships the trivial `NoActionStrategy.confirm`.  `NoAction`
keeps the previous position, `Open`/`Adjust` install the carried
position, `Close` leaves the strategy flat. -/
def confirmPrev (prev : Position) : Action → Position
  | Action.noAction => prev
  | Action.openPos p _ => p
  | Action.closePos _ _ => Position.flat
  | Action.adjust p => p

/-- The state-machine equality used by the spec's transition table:
agreement on side and size (fill price and stops are execution
metadata, outside the table's state space). -/
def Position.sameState (p q : Position) : Prop :=
  p.side = q.side ∧ p.size = q.size

instance (p q : Position) : Decidable (p.sameState q) := by
  unfold Position.sameState; infer_instance

/-! ## Vectorised backtest equity (src/execution/backtester.py, `evaluate`)

`close_returns = signals["close"].pct_change().fillna(0)`,
`strategy_returns = signals["position"].shift(1).fillna(0) * close_returns`,
`equity_curve = capital * (1 + strategy_returns).cumprod()`. -/

/-- Tail of pandas `pct_change`: each element is
`(current - previous) / previous`, threading the previous value. -/
def pctChangeAux (prev : ℚ) : List ℚ → List ℚ
  | [] => []
  | c :: rest => (c - prev) / prev :: pctChangeAux c rest

/-- pandas `close.pct_change().fillna(0)`: the first return is 0 (the
NaN produced by `pct_change` filled with 0). -/
def pctChange : List ℚ → List ℚ
  | [] => []
  | c :: rest => 0 :: pctChangeAux c rest

/-- pandas `series.shift(1).fillna(0)`: prepend a 0 and drop the last
element. -/
def shiftFill (xs : List ℚ) : List ℚ :=
  match xs with
  | [] => []
  | _ => 0 :: xs.dropLast

/-- `strategy_returns`: elementwise product of the shifted position
series with the close-return series. -/
def strategyReturns (positions closes : List ℚ) : List ℚ :=
  List.zipWith (fun p r => p * r) (shiftFill positions) (pctChange closes)

/-- `capital * (1 + returns).cumprod()`, threading the running product. -/
def cumprodFrom (acc : ℚ) : List ℚ → List ℚ
  | [] => []
  | r :: rest => acc * (1 + r) :: cumprodFrom (acc * (1 + r)) rest

/-- The equity curve built by `evaluate`. -/
def equityCurve (capital : ℚ) (positions closes : List ℚ) : List ℚ :=
  cumprodFrom capital (strategyReturns positions closes)

/-- The always-long base signal: position 1.0 on every bar. -/
def alwaysLong (n : ℕ) : List ℚ := List.replicate n 1

/-! ## Incremental statistics engine (src/executor/backtester.py)

Welford accumulator state and `_current_sharpe_ratio`.  The engine's
`np.sqrt` is a black-box square root; the Sharpe computation is
parameterised by it, since the claims about this function concern only
the guard branches, which never reach the square root. -/

/-- The executor's incremental statistics state: Welford count / mean /
M2 over bar-to-bar equity returns, plus first and last observed
nanosecond timestamps. -/
structure StatsState where
  returnCount : ℕ
  returnMean : ℚ
  returnM2 : ℚ
  firstTsNs : Option ℤ
  lastTsNs : Option ℤ
deriving DecidableEq, Repr

/-- One Welford update with a new bar return, as performed inline in
`Backtester.ack` when a previous nonzero equity exists. -/
def welfordUpdate (st : StatsState) (barRet : ℚ) : StatsState :=
  let count := st.returnCount + 1
  let delta := barRet - st.returnMean
  let mean := st.returnMean + delta / count
  let delta2 := barRet - mean
  { st with
    returnCount := count
    returnMean := mean
    returnM2 := st.returnM2 + delta * delta2 }

/-- `Backtester._current_sharpe_ratio`, with `np.sqrt` abstracted as
`sqrtQ`.  Returns 0 when fewer than 2 return samples exist, when the
sample variance `m2 / (count - 1)` is not positive, when a timestamp is
missing, or when no wall-clock time has elapsed; otherwise
`(mean / sqrt(variance)) * sqrt(365 * periods_per_day)`. -/
def currentSharpe (sqrtQ : ℚ → ℚ) (st : StatsState) : ℚ :=
  if st.returnCount < 2 then 0
  else
    let variance := st.returnM2 / ((st.returnCount : ℚ) - 1)
    if variance ≤ 0 then 0
    else
      match st.firstTsNs, st.lastTsNs with
      | some f, some l =>
        let totalSecs : ℚ := ((l - f : ℤ) : ℚ) / 1000000000
        if totalSecs ≤ 0 then 0
        else
          let barSecs := totalSecs / (st.returnCount : ℚ)
          if barSecs ≤ 0 then 0
          else
            let periodsPerDay := 86400 / barSecs
            (st.returnMean / sqrtQ variance) * sqrtQ (365 * periodsPerDay)
      | _, _ => 0

/-! ## Backtest executor fill-price assignment (src/executor/backtester.py)

`Backtester.ack` runs `if isinstance(action, Open):
action.position.price = candle.close` before confirming. -/

/-- The fill-price step of `Backtester.ack`: an `Open` action's position
price is assigned the candle's close; other actions pass through. -/
def setFillPrice (action : Action) (candleClose : ℚ) : Action :=
  match action with
  | Action.openPos p cp => Action.openPos { p with price := some candleClose } cp
  | a => a

/-! ## OKX executor (src/executor/okx.py, `OkxExcutor`)

The executor's confirmed context (`NewContext` position tracking), the
retrying open helper `_execute_open`, the single-attempt close helper
`_execute_close`, `_close_position`, and `execute`.  The exchange client
is modelled by oracles: `closeOk` for `close_position` and
`openAttempt n` for the n-th `place_order` attempt (`none` = the call
raises, `some op` = success with order price `op`, itself `none` when
the response carries no usable price). -/

/-- The mutable position-tracking state of `NewContext` used by
`OkxExcutor.execute`. -/
structure OkxCtx where
  capital : ℚ
  position : ℤ
  entry_price : Option ℚ
  entry_scale : ℚ
  holding_size : ℕ
deriving DecidableEq, Repr

/-- Exchange-client oracle: outcome of `close_position` and of each
1-based `place_order` attempt. -/
structure OkxClientModel where
  closeOk : Bool
  openAttempt : ℕ → Option (Option ℚ)

/-- Python `int(x)`: truncation toward zero. -/
def qtrunc (x : ℚ) : ℤ :=
  if 0 ≤ x then ⌊x⌋ else ⌈x⌉

/-- Contract count of `_execute_open`:
`int(position_value / price / 0.01) or 1` with
`price = reference_price or 1`. -/
def contractCount (positionValue referencePrice : ℚ) : ℕ :=
  let price := if referencePrice = 0 then 1 else referencePrice
  let c := (qtrunc (positionValue / price / (1 / 100))).toNat
  if c = 0 then 1 else c

/-- Order price resolution in `_execute_open`: fall back to the
reference price when the response price is missing or not positive. -/
def resolveOrderPrice (orderPrice : Option ℚ) (reference : ℚ) : ℚ :=
  match orderPrice with
  | none => reference
  | some p => if p ≤ 0 then reference else p

/-- The retry loop of `_execute_open`, from attempt number `i` with
`remaining` attempts allowed.  Returns the entry price on success
(`none` = `ExecutionError` after the budget), the number of the last
attempt made, and the list of inter-attempt delays slept. -/
def openLoopAux (att : ℕ → Option (Option ℚ)) (reference delay : ℚ)
    (i : ℕ) : ℕ → Option ℚ × ℕ × List ℚ
  | 0 => (none, i - 1, [])
  | remaining + 1 =>
    match att i with
    | some op => (some (resolveOrderPrice op reference), i, [])
    | none =>
      if remaining = 0 then (none, i, [])
      else
        let r := openLoopAux att reference delay (i + 1) remaining
        (r.1, r.2.1, delay :: r.2.2)

/-- `_execute_open(... max_retries, retry_delay)`: attempts start at 1. -/
def executeOpenRetry (att : ℕ → Option (Option ℚ)) (reference delay : ℚ)
    (maxRetries : ℕ) : Option ℚ × ℕ × List ℚ :=
  openLoopAux att reference delay 1 maxRetries

/-- Number of exchange `close_position` calls made by `_execute_close`:
none when nothing is held, otherwise exactly one (there is no retry
loop in `_execute_close`). -/
def closeAttemptCount (holdingSize : ℕ) : ℕ :=
  if holdingSize = 0 then 0 else 1

/-- `_execute_close`: a single `close_position` call; on failure the
`ExecutionError` propagates with the holding size untouched, on success
the holding size becomes 0.  Skipped entirely when nothing is held. -/
def executeCloseOnce (closeOk : Bool) (holdingSize : ℕ) : Except Unit ℕ :=
  if holdingSize = 0 then Except.ok holdingSize
  else if closeOk then Except.ok 0
  else Except.error ()

/-- Realised PnL of `_close_position`: sign depends on the held
direction. -/
def closePnl (ctx : OkxCtx) (price entry : ℚ) : ℚ :=
  if ctx.position = 1 then
    (price - entry) / entry * ctx.capital * ctx.entry_scale
  else
    (entry - price) / entry * ctx.capital * ctx.entry_scale

/-- `OkxExcutor._close_position`: a no-op when flat or without an entry
price; otherwise the exchange close runs first (when a client and an
instrument are configured) and only on its success is the PnL realised
and the context marked flat.  An `ExecutionError` leaves the context
untouched. -/
def closePosition (client : Option OkxClientModel) (hasInstrument : Bool)
    (price : ℚ) (ctx : OkxCtx) : Except Unit OkxCtx :=
  if ctx.position = 0 then Except.ok ctx
  else
    match ctx.entry_price with
    | none => Except.ok ctx
    | some entry =>
      let exchangeLeg : Except Unit ℕ :=
        match client with
        | some cl =>
          if hasInstrument then executeCloseOnce cl.closeOk ctx.holding_size
          else Except.ok ctx.holding_size
        | none => Except.ok ctx.holding_size
      match exchangeLeg with
      | Except.error _ => Except.error ()
      | Except.ok _ =>
        Except.ok
          { capital := ctx.capital + closePnl ctx price entry
            position := 0
            entry_price := none
            entry_scale := ctx.entry_scale
            holding_size := 0 }

/-- `OkxExcutor.execute` with the source's default retry parameters
(`max_retries = 3`, `retry_delay = 2.0`).  Every `ExecutionError` raised
by a helper is caught inside this function, so it is total: a failed
close leg returns the untouched context and a failed open leg returns
the context as left by its (already completed) close leg. -/
def executeAction (client : Option OkxClientModel) (hasInstrument : Bool)
    (price : ℚ) (action : Action) (ctx : OkxCtx) : OkxCtx :=
  match action with
  | Action.noAction => ctx
  | Action.closePos _ _ =>
    match closePosition client hasInstrument price ctx with
    | Except.ok ctx1 => ctx1
    | Except.error _ => ctx
  | Action.openPos pos _ =>
    match closePosition client hasInstrument price ctx with
    | Except.error _ => ctx
    | Except.ok ctx1 =>
      let positionValue := ctx1.capital * pos.size
      match client, hasInstrument with
      | some cl, true =>
        match executeOpenRetry cl.openAttempt price 2 3 with
        | (none, _, _) => ctx1
        | (some entryPrice, _, _) =>
          { capital := ctx1.capital
            position := pos.side.toInt
            entry_price := some entryPrice
            entry_scale := pos.size
            holding_size := contractCount positionValue price }
      | _, _ =>
        { ctx1 with
          entry_price := some price
          entry_scale := pos.size
          position := pos.side.toInt }
  | Action.adjust pos =>
    { ctx with entry_scale := pos.size, position := pos.side.toInt }

/-! ## Drawdown band lookup (src/entry/drawdown.py, src/strategy/drawdown.py)

Both `DrawdownPositionSize.generate_signals` loops run, per bar:
`scale = 1.0; for dd_level, dd_scale in self.thresh_hold.items():
if drawdown_pct >= dd_level: scale = dd_scale; break`, over the
threshold map sorted descending by key. -/

/-- The per-bar band lookup: the bands are the threshold map's
`(level, scale)` pairs in descending key order; the first level not
exceeding the drawdown wins; the default scale is 1. -/
def selectScale : List (ℚ × ℚ) → ℚ → ℚ
  | [], _ => 1
  | (lvl, sc) :: rest, dd => if dd ≥ lvl then sc else selectScale rest dd

/-- Well-behaved band configuration: along the descending-sorted band
list, scale factors are bounded by 1 and non-decreasing (so the more
severe band never carries the larger scale). -/
def bandsMonotone : List (ℚ × ℚ) → Prop
  | [] => True
  | [(_, s)] => s ≤ 1
  | (_, s1) :: (l2, s2) :: rest => s1 ≤ s2 ∧ bandsMonotone ((l2, s2) :: rest)

instance instDecidableBandsMonotone : ∀ bands : List (ℚ × ℚ), Decidable (bandsMonotone bands)
  | [] => by unfold bandsMonotone; infer_instance
  | [(_, _)] => by unfold bandsMonotone; infer_instance
  | (_, _) :: (l2, s2) :: rest =>
    have : Decidable (bandsMonotone ((l2, s2) :: rest)) :=
      instDecidableBandsMonotone ((l2, s2) :: rest)
    by unfold bandsMonotone; infer_instance

/-! ## Incremental EMA crossover (src/signal/macross.py, `MACross.step`)

State fields mirror the `MACross` incremental attributes `_ema_s`,
`_ema_l`, `_prev_diff`, `_position`, `_bar_count`, `_close_buffer`.
The EMA smoothing factors are `_alpha_s = 2/(short+1)` and
`_alpha_l = 2/(long+1)`. -/

namespace MACross

/-- Incremental state of `MACross.step`. -/
structure State where
  emaS : ℚ
  emaL : ℚ
  prevDiff : ℚ
  position : ℤ
  barCount : ℕ
  buffer : List ℚ
deriving DecidableEq, Repr

/-- The constructor-initialised incremental state. -/
def init : State := ⟨0, 0, 0, 0, 0, []⟩

/-- `MACross.step(close)`, returning the new state and the returned
position. -/
def step (short long : ℕ) (st : State) (close : ℚ) : State × ℤ :=
  let n := st.barCount + 1
  let buf := if n ≤ long then st.buffer ++ [close] else st.buffer
  if n < short then
    (⟨st.emaS, st.emaL, st.prevDiff, st.position, n, buf⟩, 0)
  else
    let alphaS : ℚ := 2 / ((short : ℚ) + 1)
    let emaS :=
      if n = short then buf.sum / (short : ℚ)
      else alphaS * close + (1 - alphaS) * st.emaS
    if n < long then
      (⟨emaS, st.emaL, st.prevDiff, st.position, n, buf⟩, 0)
    else if n = long then
      let emaL := buf.sum / (long : ℚ)
      (⟨emaS, emaL, emaS - emaL, st.position, n, []⟩, st.position)
    else
      let alphaL : ℚ := 2 / ((long : ℚ) + 1)
      let emaL := alphaL * close + (1 - alphaL) * st.emaL
      let diff := emaS - emaL
      let pos :=
        if diff > 0 ∧ st.prevDiff ≤ 0 then 1
        else if diff < 0 ∧ st.prevDiff ≥ 0 then -1
        else st.position
      (⟨emaS, emaL, diff, pos, n, buf⟩, pos)

/-- Feed a close sequence through `step` from a given state, collecting
the returned positions. -/
def runAux (short long : ℕ) (st : State) : List ℚ → List ℤ
  | [] => []
  | c :: rest =>
    let r := step short long st c
    r.2 :: runAux short long r.1 rest

/-- The position sequence returned by feeding `closes` bar by bar to a
freshly constructed `MACross(short, long)`. -/
def run (short long : ℕ) (closes : List ℚ) : List ℤ :=
  runAux short long init closes

/-- The incremental state after feeding `closes` from a given state. -/
def stateFrom (short long : ℕ) (st : State) (closes : List ℚ) : State :=
  closes.foldl (fun s c => (step short long s c).1) st

/-- The incremental state after feeding `closes` to a freshly
constructed `MACross(short, long)`. -/
def stateAfter (short long : ℕ) (closes : List ℚ) : State :=
  stateFrom short long init closes

end MACross

/-! ## Stop-loss overlay (src/strategy/stoploss.py, `Strategy.generate_signals`)

The bar loop threads `entry_price`, `current_pos`, `stopped_out` and
`stopped_out_direction`, rewriting the position column in place. -/

namespace StopLoss

/-- The loop state of the stop-loss overlay. -/
structure State where
  entry : Option ℚ
  currentPos : ℚ
  stopped : Bool
  stoppedDir : ℚ
deriving DecidableEq, Repr

/-- The loop-variable initial values. -/
def init : State := ⟨none, 0, false, 0⟩

/-- The trailing stop-loss check of the loop body (reached when no
`continue` fired): with an active position, compare the unrealised loss
fraction against the threshold and force the bar flat on a breach. -/
def check (threshold : ℚ) (st : State) (originalPos price : ℚ) : State × ℚ :=
  match st.entry with
  | none => (st, originalPos)
  | some entry =>
    if st.currentPos ≠ 0 then
      let lossPct :=
        if st.currentPos = 1 then (entry - price) / entry
        else (price - entry) / entry
      if lossPct ≥ threshold then
        (⟨none, 0, true, st.currentPos⟩, 0)
      else (st, originalPos)
    else (st, originalPos)

/-- One iteration of the stop-loss loop: handle the stopped state
(stay flat on the stopped direction, re-arm on a direction change),
record entries on base-position changes, then run the loss check. -/
def step (threshold : ℚ) (st : State) (originalPos price : ℚ) : State × ℚ :=
  if st.stopped then
    if originalPos ≠ st.stoppedDir then
      check threshold ⟨some price, originalPos, false, st.stoppedDir⟩
        originalPos price
    else (st, 0)
  else if originalPos ≠ st.currentPos then
    if originalPos ≠ 0 then
      (⟨some price, originalPos, st.stopped, st.stoppedDir⟩, originalPos)
    else (⟨none, originalPos, st.stopped, st.stoppedDir⟩, originalPos)
  else check threshold st originalPos price

/-- Run the loop over `(position, close)` rows from a given state,
collecting the rewritten position column. -/
def runAux (threshold : ℚ) (st : State) : List (ℚ × ℚ) → List ℚ
  | [] => []
  | (p, c) :: rest =>
    let r := step threshold st p c
    r.2 :: runAux threshold r.1 rest

/-- `Strategy.generate_signals` position rewriting on a list of
`(position, close)` rows. -/
def run (threshold : ℚ) (rows : List (ℚ × ℚ)) : List ℚ :=
  runAux threshold init rows

/-- The loop state after processing `rows` from a given state. -/
def stateFrom (threshold : ℚ) (st : State) (rows : List (ℚ × ℚ)) : State :=
  rows.foldl (fun s pc => (step threshold s pc.1 pc.2).1) st

end StopLoss

/-! ## Theorems -/

/-- C3 (counterexample): the claim fails on the code as stated.  The
zero-argument default constructor `Position()` takes the dataclass
defaults `side=Side.FLAT, size=1.0`, giving a FLAT position of nonzero
size. -/
theorem C3_default_ctor_counterexample :
    Position.defaultCtor.side = Side.flat ∧ Position.defaultCtor.size ≠ 0 := by
  exact ⟨rfl, by decide⟩

/-- C3 (amended): every `Position` produced by the classmethod
constructors `long`, `short`, `flat` and by `from_raw` satisfies the
invariant that `size == 0` whenever `side == FLAT`; the zero-argument
default constructor is excluded, since it defaults to side FLAT with
size 1.0. -/
theorem C3_constructor_invariant :
    (∀ s : ℚ, (Position.long s).flatInv) ∧
    (∀ s : ℚ, (Position.short s).flatInv) ∧
    Position.flat.flatInv ∧
    (∀ x : ℚ, (Position.from_raw x).flatInv) := by
  refine ⟨fun s h => ?_, fun s h => ?_, fun _ => rfl, fun x => ?_⟩
  · simp [Position.long] at h
  · simp [Position.short] at h
  · unfold Position.from_raw
    split_ifs with h1 h2
    · intro h; simp at h
    · intro h; simp at h
    · intro _; rfl

/-- C3 witness: `from_raw(0)` is FLAT with size 0. -/
theorem C3_constructor_invariant_witness : (Position.from_raw 0).size = 0 :=
  C3_constructor_invariant.2.2.2 0 (by decide)

/-- C4 (counterexample): the claim fails on the code as stated.  In
`Backtester.ack` an `Open` action's fill price is assigned
unconditionally (`action.position.price = candle.close`), so an `Open`
whose price is already set (here 50) does not keep it: it is
overwritten with the candle close (here 100). -/
theorem C4_overwrite_counterexample :
    setFillPrice
        (Action.openPos { Position.long 1 with price := some 50 } none) 100
      = Action.openPos { Position.long 1 with price := some 100 } none ∧
    some (50 : ℚ) ≠ some (100 : ℚ) :=
  ⟨rfl, by decide⟩

/-- C4 (amended): in the backtest executor's `ack`, an `Open` action's
fill price is always assigned the candle's close price before the
action is confirmed — in particular an unset price is filled in, but a
price that was already set is overwritten rather than kept; non-`Open`
actions pass through unchanged.  (The reference price is always the
candle close; no open/close convention is configurable.) -/
theorem C4_fill_price_assignment :
    (∀ (p : Position) (cp : Option ℚ) (c : ℚ),
      setFillPrice (Action.openPos p cp) c
        = Action.openPos { p with price := some c } cp) ∧
    (∀ c : ℚ, setFillPrice Action.noAction c = Action.noAction) ∧
    (∀ (po : Option Position) (pr : Option ℚ) (c : ℚ),
      setFillPrice (Action.closePos po pr) c = Action.closePos po pr) ∧
    (∀ (p : Position) (c : ℚ),
      setFillPrice (Action.adjust p) c = Action.adjust p) :=
  ⟨fun _ _ _ => rfl, fun _ => rfl, fun _ _ _ => rfl, fun _ _ => rfl⟩

/-- C7: for every state of the incremental statistics engine (hence in
particular every reachable one), with fewer than 2 return samples or a
non-positive sample variance `m2 / (count - 1)`, the computed Sharpe
ratio is exactly 0, for every square-root implementation — the guard
branches never reach the square root, so no NaN/∞ can arise. -/
theorem C7_sharpe_degenerate (sqrtQ : ℚ → ℚ) (st : StatsState)
    (h : st.returnCount < 2 ∨ st.returnM2 / ((st.returnCount : ℚ) - 1) ≤ 0) :
    currentSharpe sqrtQ st = 0 := by
  unfold currentSharpe
  by_cases hc : st.returnCount < 2
  · simp [hc]
  · have hv : st.returnM2 / ((st.returnCount : ℚ) - 1) ≤ 0 := h.resolve_left hc
    simp [hc, hv]

/-- C7 witness: the freshly constructed engine (0 samples) reports
Sharpe 0. -/
theorem C7_sharpe_degenerate_witness :
    currentSharpe id ⟨0, 0, 0, none, none⟩ = 0 :=
  C7_sharpe_degenerate id ⟨0, 0, 0, none, none⟩ (Or.inl (by decide))

/-- Every band's scale in a well-behaved configuration is bounded by
the default scale 1. -/
theorem bandsMonotone_head_le_one :
    ∀ (rest : List (ℚ × ℚ)) (l s : ℚ), bandsMonotone ((l, s) :: rest) → s ≤ 1 := by
  intro rest
  induction rest with
  | nil => intro l s h; exact h
  | cons b rest ih =>
    intro l s h
    obtain ⟨b1, b2⟩ := b
    exact le_trans h.1 (ih b1 b2 h.2)

/-- In a well-behaved configuration the head band's scale bounds every
scale the tail lookup can select. -/
theorem bandsMonotone_head_le_select :
    ∀ (rest : List (ℚ × ℚ)) (l s d : ℚ), bandsMonotone ((l, s) :: rest) →
      s ≤ selectScale rest d := by
  intro rest
  induction rest with
  | nil =>
    intro l s d h
    simpa [selectScale] using h
  | cons b rest ih =>
    intro l s d h
    obtain ⟨l2, s2⟩ := b
    unfold selectScale
    split_ifs with hd
    · exact h.1
    · exact le_trans h.1 (ih l2 s2 d h.2)

/-- Dropping the most severe band keeps a configuration well-behaved. -/
theorem bandsMonotone_tail :
    ∀ (rest : List (ℚ × ℚ)) (b : ℚ × ℚ), bandsMonotone (b :: rest) →
      bandsMonotone rest := by
  intro rest b h
  cases rest with
  | nil => trivial
  | cons b2 rest2 => exact h.2

/-- C8 (counterexample): the claim fails on the code as stated.  The
band lookup is not monotone for an arbitrary configured map: with the
map `{8: 0.5, 15: 0.9}` (iterated descending as
`[(15, 0.9), (8, 0.5)]`), drawdown 10 selects scale 0.5 while the more
severe drawdown 16 selects the larger scale 0.9. -/
theorem C8_nonmonotone_counterexample :
    (10 : ℚ) < 16 ∧
    selectScale [(15, 9 / 10), (8, 1 / 2)] 10 = 1 / 2 ∧
    selectScale [(15, 9 / 10), (8, 1 / 2)] 16 = 9 / 10 ∧
    ¬ (selectScale [(15, 9 / 10), (8, 1 / 2)] 16
        ≤ selectScale [(15, 9 / 10), (8, 1 / 2)] 10) := by
  refine ⟨by norm_num, by norm_num [selectScale], by norm_num [selectScale], ?_⟩
  norm_num [selectScale]

/-- C8 (amended): for a configured drawdown-threshold map whose scale
factors, taken along the descending-sorted band list, are bounded by 1
and do not decrease (equivalently: a more severe band never carries a
larger scale), the drawdown-band lookup is antitone: for drawdown
values d1 < d2 the scale selected for d2 is at most the scale selected
for d1.  Without that proviso on the map the property fails. -/
theorem C8_band_lookup_antitone (bands : List (ℚ × ℚ))
    (hmono : bandsMonotone bands) (d1 d2 : ℚ) (h12 : d1 < d2) :
    selectScale bands d2 ≤ selectScale bands d1 := by
  induction bands with
  | nil => exact le_refl 1
  | cons b rest ih =>
    obtain ⟨l, s⟩ := b
    unfold selectScale
    split_ifs with h2 h1 h1
    · exact le_refl s
    · exact bandsMonotone_head_le_select rest l s d1 hmono
    · exact absurd (le_trans h1 h12.le) h2
    · exact ih (bandsMonotone_tail rest (l, s) hmono)

/-- C8 witness: with the well-behaved map `[(15, 1/4), (8, 1/2)]`,
drawdown 20 selects 1/4 ≤ the scale 1 selected for drawdown 5. -/
theorem C8_band_lookup_antitone_witness :
    selectScale [(15, 1 / 4), (8, 1 / 2)] 20
      ≤ selectScale [(15, 1 / 4), (8, 1 / 2)] 5 :=
  C8_band_lookup_antitone [(15, 1 / 4), (8, 1 / 2)]
    (by norm_num [bandsMonotone]) 5 20 (by norm_num)

/-- C2: the action-resolution function (modelled from the spec, which
the source does not implement) is total — it returns exactly one of
NoAction / Open / Close / Adjust — follows the spec's transition table
row by row, and confirming the returned action always yields a new
previous position with the resolved target's side and size.  The
target is assumed to satisfy the FLAT ⇒ size 0 invariant, which the
Close row needs. -/
theorem C2_resolve_total_confirm (prev target : Position)
    (hinv : target.side = Side.flat → target.size = 0) :
    (resolve prev target = Action.noAction ∨
      (∃ p c, resolve prev target = Action.openPos p c) ∨
      (∃ p c, resolve prev target = Action.closePos p c) ∨
      (∃ p, resolve prev target = Action.adjust p)) ∧
    (prev.side = target.side ∧ prev.size = target.size →
      resolve prev target = Action.noAction) ∧
    (prev.side = Side.flat → target.side ≠ Side.flat →
      resolve prev target = Action.openPos target none) ∧
    (prev.side ≠ Side.flat → target.side = Side.flat →
      resolve prev target = Action.closePos (some prev) none) ∧
    (prev.side ≠ target.side → prev.side ≠ Side.flat →
      target.side ≠ Side.flat →
      resolve prev target = Action.openPos target none) ∧
    (prev.side = target.side → prev.size ≠ target.size →
      resolve prev target = Action.adjust target) ∧
    Position.sameState (confirmPrev prev (resolve prev target)) target := by
  unfold resolve
  refine ⟨?_, ?_, ?_, ?_, ?_, ?_, ?_⟩
  · split_ifs
    · exact Or.inl rfl
    · exact Or.inr (Or.inl ⟨target, none, rfl⟩)
    · exact Or.inr (Or.inr (Or.inl ⟨some prev, none, rfl⟩))
    · exact Or.inr (Or.inl ⟨target, none, rfl⟩)
    · exact Or.inr (Or.inr (Or.inr ⟨target, rfl⟩))
  · intro h; exact if_pos h
  · intro h1 h2
    have hc1 : ¬(prev.side = target.side ∧ prev.size = target.size) :=
      fun hc => h2 (hc.1 ▸ h1)
    rw [if_neg hc1, if_pos ⟨h1, h2⟩]
  · intro h1 h2
    have hc1 : ¬(prev.side = target.side ∧ prev.size = target.size) :=
      fun hc => h1 (hc.1.trans h2)
    have hc2 : ¬(prev.side = Side.flat ∧ target.side ≠ Side.flat) :=
      fun hc => h1 hc.1
    rw [if_neg hc1, if_neg hc2, if_pos ⟨h1, h2⟩]
  · intro h1 h2 h3
    have hc1 : ¬(prev.side = target.side ∧ prev.size = target.size) :=
      fun hc => h1 hc.1
    have hc2 : ¬(prev.side = Side.flat ∧ target.side ≠ Side.flat) :=
      fun hc => h2 hc.1
    have hc3 : ¬(prev.side ≠ Side.flat ∧ target.side = Side.flat) :=
      fun hc => h3 hc.2
    rw [if_neg hc1, if_neg hc2, if_neg hc3, if_pos h1]
  · intro h1 h2
    have hc1 : ¬(prev.side = target.side ∧ prev.size = target.size) :=
      fun hc => h2 hc.2
    have hc2 : ¬(prev.side = Side.flat ∧ target.side ≠ Side.flat) :=
      fun hc => hc.2 (h1.symm.trans hc.1)
    have hc3 : ¬(prev.side ≠ Side.flat ∧ target.side = Side.flat) :=
      fun hc => hc.1 (h1.trans hc.2)
    have hc4 : ¬(prev.side ≠ target.side) := fun hc => hc h1
    rw [if_neg hc1, if_neg hc2, if_neg hc3, if_neg hc4]
  · split_ifs with h1 h2 h3 h4
    · exact ⟨h1.1, h1.2⟩
    · exact ⟨rfl, rfl⟩
    · exact ⟨h3.2.symm, (hinv h3.2).symm⟩
    · exact ⟨rfl, rfl⟩
    · exact ⟨rfl, rfl⟩

/-- C2 witness: resolving LONG(1) against FLAT and confirming yields a
FLAT previous position of size 0. -/
theorem C2_resolve_total_confirm_witness :
    Position.sameState
      (confirmPrev (Position.long 1) (resolve (Position.long 1) Position.flat))
      Position.flat :=
  (C2_resolve_total_confirm (Position.long 1) Position.flat
    (by decide)).2.2.2.2.2.2

/-- `pctChangeAux` preserves length. -/
theorem pctChangeAux_length (prev : ℚ) :
    ∀ xs : List ℚ, (pctChangeAux prev xs).length = xs.length := by
  intro xs
  induction xs generalizing prev with
  | nil => rfl
  | cons c rest ih => simp [pctChangeAux, ih c]

/-- `pctChange` preserves length. -/
theorem pctChange_length (xs : List ℚ) : (pctChange xs).length = xs.length := by
  cases xs with
  | nil => rfl
  | cons c rest => simp [pctChange, pctChangeAux_length c rest]

/-- Multiplying elementwise by an all-ones position series is the
identity. -/
theorem zipWith_ones (ys : List ℚ) :
    List.zipWith (fun p r => p * r) (List.replicate ys.length 1) ys = ys := by
  induction ys with
  | nil => rfl
  | cons y rest ih => simp [List.replicate_succ, ih]

/-- With an always-long base signal, the strategy returns reduce to the
close returns. -/
theorem strategyReturns_alwaysLong (closes : List ℚ) :
    strategyReturns (alwaysLong closes.length) closes = pctChange closes := by
  cases closes with
  | nil => rfl
  | cons c rest =>
    unfold strategyReturns alwaysLong shiftFill
    simp only [List.length_cons, List.replicate_succ]
    have hdrop : (1 :: List.replicate rest.length (1 : ℚ)).dropLast
        = List.replicate rest.length 1 := by
      rw [show (1 :: List.replicate rest.length (1 : ℚ))
            = List.replicate (rest.length + 1) 1 from rfl,
        List.replicate_succ', List.dropLast_concat]
    rw [hdrop]
    show List.zipWith (fun p r => p * r)
        (0 :: List.replicate rest.length 1) (0 :: pctChangeAux c rest)
      = pctChange (c :: rest)
    rw [List.zipWith_cons_cons]
    rw [show List.replicate rest.length (1 : ℚ)
          = List.replicate (pctChangeAux c rest).length 1 by
        rw [pctChangeAux_length]]
    rw [zipWith_ones (pctChangeAux c rest)]
    simp [pctChange]

/-- Each entry of the running cumulative product is the seed times the
product of `(1 + r)` over the prefix of returns ending there. -/
theorem cumprodFrom_getElem :
    ∀ (xs : List ℚ) (acc : ℚ) (i : ℕ), i < xs.length →
      (cumprodFrom acc xs)[i]?
        = some (acc * (((xs.take (i + 1)).map (fun r => 1 + r)).prod)) := by
  intro xs
  induction xs with
  | nil => intro acc i hi; simp at hi
  | cons r rest ih =>
    intro acc i hi
    cases i with
    | zero => simp [cumprodFrom, mul_comm]
    | succ i =>
      have hi2 : i < rest.length := by simpa using hi
      rw [show cumprodFrom acc (r :: rest)
            = acc * (1 + r) :: cumprodFrom (acc * (1 + r)) rest from rfl,
        List.getElem?_cons_succ, ih (acc * (1 + r)) i hi2,
        List.take_succ_cons, List.map_cons, List.prod_cons, mul_assoc]

/-- The running cumulative product over a longer return series agrees
with the one over any prefix, entry by entry. -/
theorem cumprodFrom_agree :
    ∀ (xs ys : List ℚ) (acc : ℚ) (i : ℕ), i < xs.length →
      (cumprodFrom acc (xs ++ ys))[i]? = (cumprodFrom acc xs)[i]? := by
  intro xs
  induction xs with
  | nil => intro ys acc i hi; simp at hi
  | cons r rest ih =>
    intro ys acc i hi
    cases i with
    | zero => simp [cumprodFrom]
    | succ i =>
      have hi2 : i < rest.length := by simpa using hi
      rw [show cumprodFrom acc ((r :: rest) ++ ys)
            = acc * (1 + r) :: cumprodFrom (acc * (1 + r)) (rest ++ ys) from rfl,
        show cumprodFrom acc (r :: rest)
            = acc * (1 + r) :: cumprodFrom (acc * (1 + r)) rest from rfl,
        List.getElem?_cons_succ, List.getElem?_cons_succ]
      exact ih ys (acc * (1 + r)) i hi2

/-- `pctChangeAux` over an extended series splits as the original tail
followed by the continuation threaded from the last original value. -/
theorem pctChangeAux_append (xs : List ℚ) :
    ∀ (prev : ℚ) (ys : List ℚ),
      pctChangeAux prev (xs ++ ys)
        = pctChangeAux prev xs ++ pctChangeAux (xs.getLastD prev) ys := by
  induction xs with
  | nil => intro prev ys; simp [pctChangeAux]
  | cons c rest ih =>
    intro prev ys
    simp only [List.cons_append, pctChangeAux, List.getLastD_cons]
    change (c - prev) / prev :: pctChangeAux c (rest ++ ys) = _
    rw [ih c ys]

/-- The close-return series of an extended close series extends the
original close-return series. -/
theorem pctChange_append (closes future : List ℚ) :
    ∃ tail, pctChange (closes ++ future) = pctChange closes ++ tail := by
  cases closes with
  | nil => exact ⟨pctChange future, rfl⟩
  | cons c rest =>
    refine ⟨pctChangeAux (rest.getLastD c) future, ?_⟩
    simp only [List.cons_append, pctChange]
    rw [pctChangeAux_append rest c future]

/-- C1: with the always-long base signal and no overlays, `evaluate`'s
equity at bar i is the capital times the product over j ≤ i of
`1 + strategy_return(j)` where `strategy_return(j)` is the position
held at bar j−1 times the close return from bar j−1 to j; the equity at
bar i is unchanged by appending future bars (no lookahead); and on the
spec's scenario (capital 1000, closes [100, 105, 95, 90, 110]) the
equity curve is exactly [1000, 1050, 950, 900, 1100] — 1000 after
bar 1, 1050 after bar 2, 950 after bar 3. -/
theorem C1_equity_no_lookahead (capital : ℚ) (closes future : List ℚ) (i : ℕ)
    (hi : i < closes.length) :
    (equityCurve capital (alwaysLong closes.length) closes)[i]?
      = some (capital *
          (((strategyReturns (alwaysLong closes.length) closes).take (i + 1)).map
            (fun r => 1 + r)).prod) ∧
    (equityCurve capital (alwaysLong (closes ++ future).length)
        (closes ++ future))[i]?
      = (equityCurve capital (alwaysLong closes.length) closes)[i]? ∧
    equityCurve 1000 (alwaysLong 5) [100, 105, 95, 90, 110]
      = [1000, 1050, 950, 900, 1100] := by
  refine ⟨?_, ?_, ?_⟩
  · unfold equityCurve
    apply cumprodFrom_getElem
    rw [strategyReturns_alwaysLong, pctChange_length]
    exact hi
  · unfold equityCurve
    rw [strategyReturns_alwaysLong, strategyReturns_alwaysLong]
    obtain ⟨tail, htail⟩ := pctChange_append closes future
    rw [htail]
    apply cumprodFrom_agree
    rw [pctChange_length]
    exact hi
  · norm_num [equityCurve, alwaysLong, strategyReturns, shiftFill, pctChange,
      pctChangeAux, cumprodFrom, List.zipWith]

/-- C1 witness: the concrete scenario equities. -/
theorem C1_equity_no_lookahead_witness :
    equityCurve 1000 (alwaysLong 5) [100, 105, 95, 90, 110]
      = [1000, 1050, 950, 900, 1100] :=
  (C1_equity_no_lookahead 1000 [100, 105, 95, 90, 110] [] 2 (by norm_num)).2.2

/-- The retry loop of `_execute_open` on an always-failing client:
starting at attempt `i` with a positive remaining budget, it makes
exactly the budgeted attempts, sleeps the constant delay between
consecutive attempts, and gives up. -/
theorem openLoopAux_always_fails (att : ℕ → Option (Option ℚ))
    (reference delay : ℚ) (hfail : ∀ n, att n = none) :
    ∀ (remaining i : ℕ), 1 ≤ remaining →
      openLoopAux att reference delay i remaining
        = (none, i + remaining - 1, List.replicate (remaining - 1) delay) := by
  intro remaining
  induction remaining with
  | zero => intro i h; omega
  | succ rem ih =>
    intro i _
    unfold openLoopAux
    rw [hfail i]
    cases rem with
    | zero => simp
    | succ rem2 =>
      have hne : rem2 + 1 ≠ 0 := Nat.succ_ne_zero rem2
      simp only [hne, if_false]
      rw [ih (i + 1) (Nat.le_add_left 1 rem2)]
      have h2 : i + 1 + (rem2 + 1) - 1 = i + (rem2 + 1 + 1) - 1 := by omega
      have h3 : rem2 + 1 + 1 - 1 = (rem2 + 1 - 1) + 1 := by omega
      rw [h2, h3, List.replicate_succ]

/-- C6 (counterexample): the claim fails on the code as stated for the
closing side: `_execute_close` makes a single `close_position` call
with no retry loop, so an always-failing close is attempted exactly
once, not `max_retries` (default 3) times. -/
theorem C6_close_single_attempt_counterexample :
    closeAttemptCount 5 = 1 ∧ (1 : ℕ) ≠ 3 ∧
    executeCloseOnce false 5 = Except.error () := by
  refine ⟨rfl, by decide, rfl⟩

/-- C6 (amended): opening a position is retried up to the fixed budget:
an always-failing `place_order` is attempted exactly `max_retries`
times, with the constant (hence non-decreasing and capped)
`retry_delay` slept between consecutive attempts, and is then
abandoned (the loop yields no fill and `_execute_open` raises
`ExecutionError`, which `execute` catches).  Closing, by contrast, is
attempted exactly once per action — `_execute_close` has no retry
loop — and a failure is likewise surfaced as `ExecutionError` and not
raised past `execute`. -/
theorem C6_retry_budget (att : ℕ → Option (Option ℚ)) (reference delay : ℚ)
    (maxRetries : ℕ) (hfail : ∀ n, att n = none) (hpos : 1 ≤ maxRetries) :
    executeOpenRetry att reference delay maxRetries
      = (none, maxRetries, List.replicate (maxRetries - 1) delay) ∧
    (∀ holding : ℕ, holding ≠ 0 →
      closeAttemptCount holding = 1 ∧
      executeCloseOnce false holding = Except.error ()) := by
  constructor
  · unfold executeOpenRetry
    rw [openLoopAux_always_fails att reference delay hfail maxRetries 1 hpos]
    have h1 : 1 + maxRetries - 1 = maxRetries := by omega
    rw [h1]
  · intro holding hne
    exact ⟨by simp [closeAttemptCount, hne], by simp [executeCloseOnce, hne]⟩

/-- C6 witness: three always-failing attempts with two constant delays
of 2 seconds, then abandonment; a held size of 7 gets one close call. -/
theorem C6_retry_budget_witness :
    executeOpenRetry (fun _ => none) 100 2 3 = (none, 3, List.replicate 2 2) ∧
    closeAttemptCount 7 = 1 :=
  ⟨(C6_retry_budget (fun _ => none) 100 2 3 (fun _ => rfl) (by decide)).1,
    ((C6_retry_budget (fun _ => none) 100 2 3 (fun _ => rfl) (by decide)).2 7
      (by decide)).1⟩

/-- C5 (counterexample): the claim fails on the code as stated.  For a
direction-flip `Open` whose close leg succeeds on the exchange but
whose `place_order` then fails after the full retry budget, the
context is not left as it was before the action: starting long at
entry 100 with capital 1000, an `Open` SHORT at price 90 with an
always-failing order leaves position 0 (not 1) and capital 900 (not
1000) — the realized close leg is retained. -/
theorem C5_flip_open_fail_counterexample :
    (executeAction (some ⟨true, fun _ => none⟩) true 90
        (Action.openPos (Position.short 1) none)
        ⟨1000, 1, some 100, 1, 5⟩).position = 0 ∧
    (executeAction (some ⟨true, fun _ => none⟩) true 90
        (Action.openPos (Position.short 1) none)
        ⟨1000, 1, some 100, 1, 5⟩).capital = 900 ∧
    (0 : ℤ) ≠ 1 ∧ (900 : ℚ) ≠ 1000 := by
  refine ⟨rfl, ?_, by decide, ?_⟩ <;> norm_num [executeAction, closePosition,
    executeCloseOnce, closePnl, executeOpenRetry, openLoopAux, resolveOrderPrice]

/-- C5 (amended): in `OkxExcutor.execute`, every `ExecutionError` is
caught inside `execute` (non-fatal, processing continues).  When the
exchange close call fails, both a `Close` action and an `Open` action
leave the context exactly as it was — a failed close never marks the
position closed.  When the close leg succeeds (or is not needed) and
the open call then fails after its retry budget, the `Open` action
leaves the context exactly as the close leg left it — a failed open
never marks a position opened, though for a direction flip the
already-realized close (flat position, capital updated by the close
PnL) is retained rather than rolled back. -/
theorem C5_failed_execution_preserves_state (client : OkxClientModel)
    (price : ℚ) (ctx : OkxCtx) (pos : Position) (cp : Option ℚ)
    (cpos : Option Position) (cpr : Option ℚ) :
    (closePosition (some client) true price ctx = Except.error () →
      executeAction (some client) true price (Action.closePos cpos cpr) ctx
          = ctx ∧
      executeAction (some client) true price (Action.openPos pos cp) ctx
          = ctx) ∧
    (∀ ctx1 : OkxCtx, closePosition (some client) true price ctx = Except.ok ctx1 →
      (∀ n, client.openAttempt n = none) →
      executeAction (some client) true price (Action.openPos pos cp) ctx
        = ctx1) := by
  constructor
  · intro herr
    constructor
    · unfold executeAction
      rw [herr]
    · unfold executeAction
      rw [herr]
  · intro ctx1 hok hfail
    have hopen : executeOpenRetry client.openAttempt price 2 3
        = (none, 3, List.replicate 2 2) := by
      unfold executeOpenRetry
      rw [openLoopAux_always_fails client.openAttempt price 2 hfail 3 1
        (by norm_num)]
    unfold executeAction
    simp only [hok, hopen]

/-- C5 witness: a failing exchange close on a held long leaves the
context untouched for a `Close` action. -/
theorem C5_failed_execution_preserves_state_witness :
    executeAction (some ⟨false, fun _ => none⟩) true 90
        (Action.closePos none none) ⟨1000, 1, some 100, 1, 5⟩
      = ⟨1000, 1, some 100, 1, 5⟩ :=
  ((C5_failed_execution_preserves_state ⟨false, fun _ => none⟩ 90
      ⟨1000, 1, some 100, 1, 5⟩ (Position.short 1) none none none).1 rfl).1

/-- Before the long window is filled, `MACross.step` only counts the
bar and buffers the close: the held position stays 0 and the returned
target is 0 (also on the seeding bar itself, which returns the held
position without flipping it). -/
theorem MACross.step_early (short long : ℕ) (st : MACross.State) (c : ℚ)
    (hbc : st.barCount < long) (hpos : st.position = 0) :
    (MACross.step short long st c).1.barCount = st.barCount + 1 ∧
    (MACross.step short long st c).1.position = 0 ∧
    (MACross.step short long st c).2 = 0 := by
  simp only [MACross.step]
  split_ifs with h1 h2 h3 <;>
    first
      | exact ⟨rfl, hpos, rfl⟩
      | exact ⟨rfl, hpos, hpos⟩
      | (exfalso; omega)

set_option linter.unreachableTactic false in
set_option linter.unusedTactic false in
/-- Before the long window is filled, `MACross.step` appends the close
to the seed buffer. -/
theorem MACross.step_buffer (short long : ℕ) (st : MACross.State) (c : ℚ)
    (hbc : st.barCount + 1 < long) :
    (MACross.step short long st c).1.buffer = st.buffer ++ [c] := by
  have hle : st.barCount + 1 ≤ long := by omega
  simp only [MACross.step]
  split_ifs <;> first | rfl | (exfalso; omega)

/-- The step-indexed runner returns 0 at every index that keeps the bar
count within the long window, as long as the incoming position is 0. -/
theorem MACross.runAux_zero (short long : ℕ) :
    ∀ (closes : List ℚ) (st : MACross.State) (i : ℕ), st.position = 0 →
      st.barCount + i + 1 ≤ long → i < closes.length →
      (MACross.runAux short long st closes)[i]? = some 0 := by
  intro closes
  induction closes with
  | nil => intro st i _ _ h; simp at h
  | cons c rest ih =>
    intro st i hpos hcount hlen
    have hbc : st.barCount < long := by omega
    obtain ⟨hb, hp, ho⟩ := MACross.step_early short long st c hbc hpos
    cases i with
    | zero => simp [MACross.runAux, ho]
    | succ i =>
      have hcons : (MACross.runAux short long st (c :: rest))[i + 1]?
          = (MACross.runAux short long (MACross.step short long st c).1 rest)[i]? := by
        simp [MACross.runAux]
      rw [hcons]
      refine ih (MACross.step short long st c).1 i hp ?_ (by simpa using hlen)
      rw [hb]
      omega

/-- Appending one close steps the accumulated state once. -/
theorem MACross.stateAfter_append (short long : ℕ) (xs : List ℚ) (c : ℚ) :
    MACross.stateAfter short long (xs ++ [c])
      = (MACross.step short long (MACross.stateAfter short long xs) c).1 := by
  unfold MACross.stateAfter MACross.stateFrom
  rw [List.foldl_append]
  rfl

/-- Strictly inside the long window, the accumulated state has counted
every bar, holds position 0, and has buffered exactly the closes seen. -/
theorem MACross.stateAfter_early (short long : ℕ) (closes : List ℚ)
    (h : closes.length < long) :
    (MACross.stateAfter short long closes).barCount = closes.length ∧
    (MACross.stateAfter short long closes).position = 0 ∧
    (MACross.stateAfter short long closes).buffer = closes := by
  induction closes using List.reverseRecOn with
  | nil => exact ⟨rfl, rfl, rfl⟩
  | append_singleton xs c ih =>
    have hlen : xs.length + 1 < long := by simpa using h
    obtain ⟨hb, hp, hbuf⟩ := ih (by omega)
    rw [MACross.stateAfter_append]
    have hbc : (MACross.stateAfter short long xs).barCount < long := by omega
    obtain ⟨hb2, hp2, _⟩ :=
      MACross.step_early short long (MACross.stateAfter short long xs) c hbc hp
    have hbuf2 := MACross.step_buffer short long
      (MACross.stateAfter short long xs) c (by omega)
    refine ⟨?_, hp2, ?_⟩
    · rw [hb2, hb]
      simp
    · rw [hbuf2, hbuf]

/-- The short EMA is seeded on bar `short` with the simple average of
the first `short` closes. -/
theorem MACross.emaS_seed (short long : ℕ) (hs : 0 < short)
    (hsl : short < long) (closes : List ℚ) (hlen : closes.length = short) :
    (MACross.stateAfter short long closes).emaS = closes.sum / (short : ℚ) := by
  induction closes using List.reverseRecOn with
  | nil => simp at hlen; omega
  | append_singleton xs c _ =>
    have hx : xs.length + 1 = short := by simpa using hlen
    obtain ⟨hb, hp, hbuf⟩ := MACross.stateAfter_early short long xs (by omega)
    rw [MACross.stateAfter_append]
    have hn : (MACross.stateAfter short long xs).barCount + 1 = short := by omega
    simp only [MACross.step, hn, hbuf]
    have c1 : ¬(short < short) := lt_irrefl short
    have c2 : short ≤ long := hsl.le
    simp [c1, c2, hsl]

/-- The long EMA is seeded on bar `long` with the simple average of the
first `long` closes. -/
theorem MACross.emaL_seed (short long : ℕ) (hs : 0 < short)
    (hsl : short < long) (closes : List ℚ) (hlen : closes.length = long) :
    (MACross.stateAfter short long closes).emaL = closes.sum / (long : ℚ) := by
  induction closes using List.reverseRecOn with
  | nil => simp at hlen; omega
  | append_singleton xs c _ =>
    have hx : xs.length + 1 = long := by simpa using hlen
    obtain ⟨hb, hp, hbuf⟩ := MACross.stateAfter_early short long xs (by omega)
    rw [MACross.stateAfter_append]
    have hn : (MACross.stateAfter short long xs).barCount + 1 = long := by omega
    simp only [MACross.step, hn, hbuf]
    have c1 : ¬(long < short) := by omega
    have c2 : ¬(long = short) := by omega
    have c3 : ¬(long < long) := lt_irrefl long
    simp [c1, c2, c3]

/-- After the long window is filled, a bar without a strict sign change
of the EMA difference carries the held position forward and returns it
unchanged. -/
theorem MACross.step_carry (short long : ℕ) (hsl : short < long)
    (st : MACross.State) (c : ℚ) (hbc : long ≤ st.barCount)
    (h1 : ¬((MACross.step short long st c).1.prevDiff > 0 ∧ st.prevDiff ≤ 0))
    (h2 : ¬((MACross.step short long st c).1.prevDiff < 0 ∧ st.prevDiff ≥ 0)) :
    (MACross.step short long st c).1.position = st.position ∧
    (MACross.step short long st c).2 = st.position := by
  have hns : ¬(st.barCount + 1 < short) := by omega
  have hnes : ¬(st.barCount + 1 = short) := by omega
  have hnl : ¬(st.barCount + 1 < long) := by omega
  have hnel : ¬(st.barCount + 1 = long) := by omega
  have hnle : ¬(st.barCount + 1 ≤ long) := by omega
  simp only [MACross.step, hns, hnes, hnl, hnel, hnle, if_false] at h1 h2 ⊢
  constructor <;> rw [if_neg h1, if_neg h2]

/-- C9: for every close sequence fed to the incremental `MACross.step`
(0 < short < long): the returned target is 0 on every bar up to and
including the seeding bar `long`; the short and long EMAs are seeded
with the simple average of the first `short` (resp. `long`) closes —
the recursive updates use α = 2/(period+1) by definition of `step` —
and after the seeding bar the held position changes only on a strict
sign change of (short EMA − long EMA), being carried forward and
returned unchanged on every bar without a crossover. -/
theorem C9_macross_step (short long : ℕ) (hs : 0 < short)
    (hsl : short < long) (closes : List ℚ) :
    (∀ i, i < closes.length → i < long →
      (MACross.run short long closes)[i]? = some 0) ∧
    (closes.length = short →
      (MACross.stateAfter short long closes).emaS
        = closes.sum / (short : ℚ)) ∧
    (closes.length = long →
      (MACross.stateAfter short long closes).emaL
        = closes.sum / (long : ℚ)) ∧
    (∀ (st : MACross.State) (c : ℚ), long ≤ st.barCount →
      ¬((MACross.step short long st c).1.prevDiff > 0 ∧ st.prevDiff ≤ 0) →
      ¬((MACross.step short long st c).1.prevDiff < 0 ∧ st.prevDiff ≥ 0) →
      (MACross.step short long st c).1.position = st.position ∧
      (MACross.step short long st c).2 = st.position) := by
  refine ⟨?_, ?_, ?_, ?_⟩
  · intro i hlen hi
    refine MACross.runAux_zero short long closes MACross.init i rfl ?_ hlen
    show 0 + i + 1 ≤ long
    omega
  · intro hlen
    exact MACross.emaS_seed short long hs hsl closes hlen
  · intro hlen
    exact MACross.emaL_seed short long hs hsl closes hlen
  · intro st c hbc h1 h2
    exact MACross.step_carry short long hsl st c hbc h1 h2

/-- C9 witness: MACross(1, 2) returns 0 on the first bar of [5, 6]. -/
theorem C9_macross_step_witness :
    (MACross.run 1 2 [5, 6])[0]? = some 0 :=
  (C9_macross_step 1 2 (by decide) (by decide) [5, 6]).1 0 (by decide) (by decide)

/-- Running the stop-loss loop over concatenated rows splits at the
intermediate loop state. -/
theorem StopLoss.runAux_append (th : ℚ) :
    ∀ (xs ys : List (ℚ × ℚ)) (st : StopLoss.State),
      StopLoss.runAux th st (xs ++ ys)
        = StopLoss.runAux th st xs
          ++ StopLoss.runAux th (StopLoss.stateFrom th st xs) ys := by
  intro xs
  induction xs with
  | nil => intro ys st; rfl
  | cons pc rest ih =>
    intro ys st
    obtain ⟨p, c⟩ := pc
    simp only [List.cons_append, StopLoss.runAux]
    change (StopLoss.step th st p c).2
        :: StopLoss.runAux th (StopLoss.step th st p c).1 (rest ++ ys) = _
    rw [ih ys (StopLoss.step th st p c).1]
    rfl

/-- In the stopped state, a bar whose base position equals the stopped
direction is forced flat and leaves the loop state unchanged. -/
theorem StopLoss.step_stopped_hold (th : ℚ) (st : StopLoss.State)
    (orig price : ℚ) (hs : st.stopped = true) (hd : orig = st.stoppedDir) :
    StopLoss.step th st orig price = (st, 0) := by
  unfold StopLoss.step
  rw [hs]
  simp [hd]

/-- After a long stop-out, an all-long base tail is forced flat bar by
bar. -/
theorem StopLoss.runAux_stopped_long (more : List ℚ) :
    StopLoss.runAux (1 / 10) ⟨none, 0, true, 1⟩ (more.map (fun p => (1, p)))
      = List.replicate more.length 0 := by
  induction more with
  | nil => rfl
  | cons p rest ih =>
    simp only [List.map_cons, StopLoss.runAux,
      StopLoss.step_stopped_hold (1 / 10) ⟨none, 0, true, 1⟩ 1 p rfl rfl]
    rw [ih]
    simp [List.replicate_succ]

/-- In the stopped state with threshold 10%, a bar whose base position
differs from the stopped direction re-arms the overlay: the new entry
is the bar's price and the stopped flag clears (the loss check on the
re-entry bar compares a zero loss against the positive threshold). -/
theorem StopLoss.step_rearm (st : StopLoss.State) (orig price : ℚ)
    (hs : st.stopped = true) (hd : orig ≠ st.stoppedDir) :
    ((StopLoss.step (1 / 10) st orig price).1).stopped = false := by
  unfold StopLoss.step
  rw [hs]
  simp only [hd, if_true, ite_not]
  unfold StopLoss.check
  by_cases h0 : orig = 0
  · simp [h0, hd]
  · by_cases h1 : orig = 1 <;> simp [h0, h1, hd, sub_self, zero_div] <;> norm_num

/-- C10: the stop-loss overlay at threshold 10% on an always-long base
with closes [100, 95, 89]: the entry is recorded at 100, the 11% loss
at 89 forces the position to 0 on that bar, the output stays 0 on every
further bar whose base signal is still long (the loop state is frozen),
and the overlay re-arms exactly when the base position differs from the
stopped direction. -/
theorem C10_stoploss_scenario :
    StopLoss.run (1 / 10) [(1, 100), (1, 95), (1, 89)] = [1, 1, 0] ∧
    (StopLoss.stateFrom (1 / 10) StopLoss.init [(1, 100)]).entry = some 100 ∧
    (∀ more : List ℚ,
      StopLoss.run (1 / 10)
          ([(1, 100), (1, 95), (1, 89)] ++ more.map (fun p => (1, p)))
        = [1, 1, 0] ++ List.replicate more.length 0) ∧
    (∀ (st : StopLoss.State) (orig price : ℚ), st.stopped = true →
      (orig = st.stoppedDir →
        StopLoss.step (1 / 10) st orig price = (st, 0)) ∧
      (orig ≠ st.stoppedDir →
        ((StopLoss.step (1 / 10) st orig price).1).stopped = false)) := by
  have hrun : StopLoss.run (1 / 10) [(1, 100), (1, 95), (1, 89)] = [1, 1, 0] := by
    norm_num [StopLoss.run, StopLoss.runAux, StopLoss.step, StopLoss.check,
      StopLoss.init]
  have hstate : StopLoss.stateFrom (1 / 10) StopLoss.init
      [(1, 100), (1, 95), (1, 89)] = ⟨none, 0, true, 1⟩ := by
    norm_num [StopLoss.stateFrom, StopLoss.step, StopLoss.check, StopLoss.init]
  refine ⟨hrun, ?_, ?_, ?_⟩
  · norm_num [StopLoss.stateFrom, StopLoss.step, StopLoss.check, StopLoss.init]
  · intro more
    unfold StopLoss.run
    rw [StopLoss.runAux_append (1 / 10) [(1, 100), (1, 95), (1, 89)]
      (more.map (fun p => (1, p))) StopLoss.init]
    rw [show StopLoss.runAux (1 / 10) StopLoss.init [(1, 100), (1, 95), (1, 89)]
          = [1, 1, 0] from hrun, hstate, StopLoss.runAux_stopped_long]
  · intro st orig price hs
    exact ⟨fun hd => StopLoss.step_stopped_hold (1 / 10) st orig price hs hd,
      fun hd => StopLoss.step_rearm st orig price hs hd⟩

/-- C10 witness: a fourth all-long bar stays flat after the stop-out. -/
theorem C10_stoploss_scenario_witness :
    StopLoss.step (1 / 10) ⟨none, 0, true, 1⟩ 1 85 = (⟨none, 0, true, 1⟩, 0) :=
  ((C10_stoploss_scenario.2.2.2 ⟨none, 0, true, 1⟩ 1 85 rfl).1) rfl

end Trading
